import Mathlib

/-!
# Verification of the sharding core (`sharding.go`)

Shallow embedding of the sharding library: a routing layer that maps keys onto
a fixed set of shards via a CRC64 (ISO polynomial) digest, plus the connection
establisher and the fan-out operations (`Each`, `Map`, `ByKeys`).

Modelling conventions:
* Machine `uint64` arithmetic is `Nat`; every operation used here (xor, shift,
  mod) preserves the `< 2^64` bound, so no extra masking is required.
* Go strings and byte slices are `List Nat` (byte values).
* Go `error` results are `Option`/`Except` values (`none` = nil error).
* Concurrency: goroutine batches are modelled by deterministic traversal in
  launch (config/list) order.  The surfaced error of a batch is the first
  collected error in that order; whether an error is surfaced at all does not
  depend on scheduling, so the nil-vs-non-nil statements proved below hold for
  every Go schedule.  Each fan-out additionally returns the trace of
  invocations that the code launches, so that "all invocations execute" is a
  statement about a definition rather than about side effects.
-/

namespace Sharding

/-! ## CRC64 with the ISO polynomial (Go `hash/crc64`) -/

/-- Go `crc64.ISO` polynomial (reversed-bit representation). -/
def isoPoly : Nat := 0xD800000000000000

/-- One step of Go's `makeTable` inner loop:
`if crc&1 == 1 { crc = (crc >> 1) ^ poly } else { crc >>= 1 }`. -/
def crcTableStep (crc : Nat) : Nat :=
  if crc % 2 = 1 then (crc / 2) ^^^ isoPoly else crc / 2

/-- Entry `n` of the CRC table: eight `crcTableStep` rounds starting from `n`
(Go `crc64.makeTable`). -/
def crcTableEntry (n : Nat) : Nat :=
  crcTableStep^[8] n

/-- All-ones 64-bit word, used for the pre/post complement in `update`. -/
def mask64 : Nat := 2 ^ 64 - 1

/-- One byte of Go's `crc64.update` loop:
`crc = tab[byte(crc)^v] ^ (crc >> 8)`.  (`% 256` mirrors the `byte` type of
`v`; Go's slicing-by-8 fast path computes the same function.) -/
def crc64Round (crc b : Nat) : Nat :=
  crcTableEntry ((crc % 256) ^^^ (b % 256)) ^^^ (crc / 256)

/-- Go `crc64.update` without the pre/post complement. -/
def crc64Update (crc : Nat) (p : List Nat) : Nat :=
  p.foldl crc64Round crc

/-- Go `crc64.Checksum(data, tab)` = `update(0, tab, data)`:
complement, fold the rounds, complement again. -/
def crc64Checksum (p : List Nat) : Nat :=
  (crc64Update (0 ^^^ mask64) p) ^^^ mask64

/-! ## Keys and the default hash (`defaultHash.Sum`) -/

/-- The closed set of key kinds admitted by the `ID` constraint:
`string | []byte | int64 | uint64`.  Strings and byte slices are byte lists;
`int64` is an `Int`, `uint64` a `Nat`. -/
inductive Key where
  | i64 (v : Int)
  | u64 (v : Nat)
  | str (s : List Nat)
  | bytes (b : List Nat)
deriving DecidableEq

/-- Fuelled base-10 digit writer (ASCII), most significant digit first.
The fuel only needs to dominate the number of division steps. -/
def decDigitsCore : Nat → Nat → List Nat
  | 0, _ => []
  | fuel + 1, n =>
      if n < 10 then [48 + n]
      else decDigitsCore fuel (n / 10) ++ [48 + n % 10]

/-- Go `strconv.AppendUint(nil, n, 10)` as a byte list. -/
def decBytesNat (n : Nat) : List Nat :=
  decDigitsCore (n + 1) n

/-- Go `strconv.AppendInt(nil, v, 10)` as a byte list: a leading `'-'` (45)
for negative values, then the decimal digits of the magnitude. -/
def decBytesInt (v : Int) : List Nat :=
  if v < 0 then 45 :: decBytesNat v.natAbs else decBytesNat v.natAbs

/-- The `switch` of `defaultHash.Sum` building `idb`: integers are rendered as
base-10 ASCII, strings and byte slices are used verbatim. -/
def encodeKey : Key → List Nat
  | .i64 v => decBytesInt v
  | .u64 v => decBytesNat v
  | .str s => s
  | .bytes b => b

/-- `defaultHash.Sum`: CRC64-ISO checksum of the encoded key. -/
def defaultHashSum (k : Key) : Nat :=
  crc64Checksum (encodeKey k)

/-! ## Shards, strategies and the cluster -/

/-- A shard handle: identifier plus opened connection (Go `shard[ConnType]`,
with `int64` ids as in the `ShardConfig` used by `Connect`). -/
structure Shard (Conn : Type) where
  id : Int
  conn : Conn
deriving DecidableEq

/-- A selection strategy, as the graph of its `Find` method.  Go's `Find`
returns a `Shard` or panics (e.g. indexing with a zero-length list); the
panic is the `none` case. -/
def StrategyT (Conn : Type) : Type :=
  Key → List (Shard Conn) → Option (Shard Conn)

/-- `defaultStrategy.Find` for an arbitrary hash `h`:
`shards[int(h.Sum(key) % uint64(len(shards)))]`. -/
def strategyFindWith (h : Key → Nat) : StrategyT Conn :=
  fun key shards => shards[h key % shards.length]?

/-- `NewDefaultStrategy(nil)`: the default strategy over the default hash. -/
def defaultStrategyFind : StrategyT Conn :=
  strategyFindWith defaultHashSum

/-- The cluster: ordered shard list plus strategy.  The source names the
strategy field `calc`, which is a Lean keyword, hence `strat` here. -/
structure Cluster (Conn : Type) where
  list : List (Shard Conn)
  strat : StrategyT Conn

/-- `cluster.All`. -/
def Cluster.all (c : Cluster Conn) : List (Shard Conn) :=
  c.list

/-- `cluster.One`: `c.calc.Find(key, c.list)`. -/
def Cluster.one (c : Cluster Conn) (key : Key) : Option (Shard Conn) :=
  c.strat key c.list

/-- The per-shard invocations `cluster.Each` launches: one task per element of
`c.list`, in launch order, regardless of the results of the others. -/
def Cluster.eachRuns (c : Cluster Conn) (fn : Shard Conn → Option ε) :
    List (Shard Conn × Option ε) :=
  c.list.map (fun s => (s, fn s))

/-- `cluster.Each`: the aggregated error (first collected failure, `none` when
the channel stays empty) together with the invocation trace. -/
def Cluster.each (c : Cluster Conn) (fn : Shard Conn → Option ε) :
    Option ε × List (Shard Conn × Option ε) :=
  ((c.eachRuns fn).filterMap Prod.snd |>.head?, c.eachRuns fn)

/-- One step of `cluster.Map`'s loop body: append `k` to the group of `s`,
creating the group when `s` is not yet a map key.  The Go map is unordered;
the model keeps groups in first-touch order. -/
def upsert [DecidableEq Conn] (res : List (Shard Conn × List Key))
    (s : Shard Conn) (k : Key) : List (Shard Conn × List Key) :=
  match res with
  | [] => [(s, [k])]
  | (s', g) :: rest =>
      if s = s' then (s', g ++ [k]) :: rest else (s', g) :: upsert rest s k

/-- `cluster.Map`'s loop over the remaining ids; `none` when `One` panics. -/
def Cluster.mapKeysAux [DecidableEq Conn] (c : Cluster Conn) :
    List (Shard Conn × List Key) → List Key →
    Option (List (Shard Conn × List Key))
  | res, [] => some res
  | res, k :: ks =>
      match c.one k with
      | none => none
      | some s => c.mapKeysAux (upsert res s k) ks

/-- `cluster.Map`: group the ids by the shard `One` selects for each. -/
def Cluster.mapKeys [DecidableEq Conn] (c : Cluster Conn) (ids : List Key) :
    Option (List (Shard Conn × List Key)) :=
  c.mapKeysAux [] ids

/-- `cluster.ByKeys`: compute the `Map` grouping, launch one task per group
(passing the group's full key subset), aggregate errors as in `Each`.
Returns the aggregated error and the invocation trace. -/
def Cluster.byKeys [DecidableEq Conn] (c : Cluster Conn) (ids : List Key)
    (fn : List Key → Shard Conn → Option ε) :
    Option (Option ε × List (List Key × Shard Conn)) :=
  match c.mapKeys ids with
  | none => none
  | some m =>
      let runs := m.map (fun p => (p.2, p.1))
      some ((runs.filterMap (fun r => fn r.1 r.2)).head?, runs)

/-! ## Configuration validation and `Connect` -/

/-- `ShardConfig`: constant shard id and address (dsn), address as bytes. -/
structure ShardConfig where
  id : Int
  addr : List Nat
deriving DecidableEq

/-- The byte values `strings.TrimSpace` removes for Latin-1 input
(`unicode.IsSpace`): `'\t' '\n' '\v' '\f' '\r' ' '`, NEL and NBSP.  The
further Unicode space classes sit above the byte range and cannot occur as a
single byte here. -/
def isSpaceByte (c : Nat) : Bool :=
  c = 9 || c = 10 || c = 11 || c = 12 || c = 13 || c = 32 || c = 133 || c = 160

/-- `strings.TrimSpace(s) == ""`: every byte is whitespace. -/
def isBlank (s : List Nat) : Bool :=
  s.all isSpaceByte

def errInvalidId : String := "validation: invalid shard id"

def errInvalidDsn : String := "validation: invalid dsn"

def errEmptyShards : String := "at least one shard config is required"

def errNotUnique : String := "shard configurations are not unique"

def errNilConnect : String := "connect func cannot be nil"

/-- `ShardConfig.valid`: non-zero id, non-blank address. -/
def ShardConfig.valid (cfg : ShardConfig) : Option String :=
  if cfg.id = 0 then some errInvalidId
  else if isBlank cfg.addr then some errInvalidDsn
  else none

/-- The loop of `areShardsUnique`, carrying the `ids` and `addresses` sets of
values seen so far. -/
def areShardsUniqueLoop : List Int → List (List Nat) → List ShardConfig → Bool
  | _, _, [] => true
  | seenIds, seenAddrs, s :: rest =>
      if s.id ∈ seenIds then false
      else if s.addr ∈ seenAddrs then false
      else areShardsUniqueLoop (s.id :: seenIds) (s.addr :: seenAddrs) rest

/-- `areShardsUnique`: no duplicate id and no duplicate address. -/
def areShardsUnique (shards : List ShardConfig) : Bool :=
  areShardsUniqueLoop [] [] shards

/-- The caller-supplied connect function, as a pure map from address to
connection or error (the `context.Context` argument is routing-irrelevant). -/
def ConnectFunc (Conn : Type) : Type :=
  List Nat → Except String Conn

/-- `Config`: connect function, shard configs, optional strategy (`nil`
collaborators are the `none` cases; the optional `Context` is dropped as it is
only forwarded to the connect function). -/
structure Config (Conn : Type) where
  connect : Option (ConnectFunc Conn)
  shards : List ShardConfig
  strategy : Option (StrategyT Conn)

/-- `Connect`'s launch loop: validate each config in order; at the first
invalid config return its error, with only the earlier configs' connection
attempts launched (the Go loop has already spawned their goroutines when the
validation error returns). -/
def validateAndLaunch : List ShardConfig → List ShardConfig × Option String
  | [] => ([], none)
  | sc :: rest =>
      match sc.valid with
      | some e => ([], some e)
      | none =>
          let r := validateAndLaunch rest
          (sc :: r.1, r.2)

/-- The launched connection attempts: successes (one shard per config, in
config order, later sorted) and collected errors (in config order — the Go
channel order is scheduling-dependent, but its emptiness is not). -/
def connLoop (f : ConnectFunc Conn) :
    List ShardConfig → List (Shard Conn) × List String
  | [] => ([], [])
  | sc :: rest =>
      let r := connLoop f rest
      match f sc.addr with
      | .error e => (r.1, e :: r.2)
      | .ok conn => (⟨sc.id, conn⟩ :: r.1, r.2)

/-- `Connect`.  Result paired with the list of addresses for which a
connection attempt was launched before returning. -/
def Connect (cfg : Config Conn) :
    Except String (Cluster Conn) × List (List Nat) :=
  if cfg.shards.length = 0 then (.error errEmptyShards, [])
  else if areShardsUnique cfg.shards = false then (.error errNotUnique, [])
  else
    match cfg.connect with
    | none => (.error errNilConnect, [])
    | some f =>
        let strat :=
          match cfg.strategy with
          | some st => st
          | none => defaultStrategyFind
        let launched := validateAndLaunch cfg.shards
        let attempted := launched.1.map (·.addr)
        match launched.2 with
        | some e => (.error e, attempted)
        | none =>
            let built := connLoop f launched.1
            match built.2.head? with
            | some e => (.error e, attempted)
            | none =>
                (.ok ⟨built.1.mergeSort (fun a b => decide (a.id ≤ b.id)),
                      strat⟩,
                 attempted)

/-! ## The spec's encoding rule, stated independently of the code -/

/-- Modelled from the spec: "integers are encoded as base-10 ASCII digit
sequences" — the decimal representation of a natural number, written via
`Nat.digits` rather than the code's digit-writer loop. -/
def decimalReprNat (n : Nat) : List Nat :=
  if n = 0 then [48] else (Nat.digits 10 n).reverse.map (fun d => 48 + d)

/-- Modelled from the spec: decimal representation of a signed integer, a
leading minus sign for negative values. -/
def decimalReprInt (v : Int) : List Nat :=
  if v < 0 then 45 :: decimalReprNat v.natAbs else decimalReprNat v.natAbs

lemma decimalReprNat_small (n : Nat) (h1 : 0 < n) (h2 : n < 10) :
    decimalReprNat n = [48 + n] := by
  rw [decimalReprNat, if_neg (Nat.pos_iff_ne_zero.mp h1),
    Nat.digits_def' (by norm_num) h1, Nat.div_eq_of_lt h2]
  simp [Nat.mod_eq_of_lt h2]

lemma decimalReprNat_large (n : Nat) (h : 10 ≤ n) :
    decimalReprNat n = decimalReprNat (n / 10) ++ [48 + n % 10] := by
  have hq0 : 0 < n / 10 := Nat.div_pos h (by norm_num)
  rw [decimalReprNat, if_neg (by omega), decimalReprNat, if_neg (by omega),
    Nat.digits_def' (show (1 : Nat) < 10 by norm_num) (by omega)]
  simp

lemma decDigitsCore_eq : ∀ fuel n, n < fuel →
    decDigitsCore fuel n = decimalReprNat n := by
  intro fuel
  induction fuel with
  | zero => intro n h; exact absurd h (Nat.not_lt_zero n)
  | succ fuel ih =>
      intro n h
      by_cases h10 : n < 10
      · rw [decDigitsCore, if_pos h10]
        by_cases h0 : n = 0
        · subst h0; rfl
        · rw [decimalReprNat_small n (Nat.pos_of_ne_zero h0) h10]
      · push_neg at h10
        have hdiv : n / 10 < n := Nat.div_lt_self (by omega) (by norm_num)
        rw [decDigitsCore, if_neg (by omega), ih (n / 10) (by omega),
          decimalReprNat_large n h10]

lemma decBytesNat_eq (n : Nat) : decBytesNat n = decimalReprNat n :=
  decDigitsCore_eq (n + 1) n (Nat.lt_succ_self n)

lemma decBytesInt_eq (v : Int) : decBytesInt v = decimalReprInt v := by
  rw [decBytesInt, decimalReprInt]
  by_cases h : v < 0
  · rw [if_pos h, if_pos h, decBytesNat_eq]
  · rw [if_neg h, if_neg h, decBytesNat_eq]

/-- C7: the default hash is a pure function of the key's byte encoding — for
integer keys (`int64`/`uint64`) the digest equals the digest of the base-10
ASCII decimal string of the value, and for string and byte keys the digest is
the CRC64-ISO checksum of the verbatim bytes. -/
theorem defaultHash_sum_encoding :
    (∀ v : Int, defaultHashSum (.i64 v) = defaultHashSum (.str (decimalReprInt v))) ∧
    (∀ n : Nat, defaultHashSum (.u64 n) = defaultHashSum (.str (decimalReprNat n))) ∧
    (∀ s : List Nat, defaultHashSum (.str s) = crc64Checksum s) ∧
    (∀ b : List Nat, defaultHashSum (.bytes b) = crc64Checksum b) := by
  refine ⟨fun v => ?_, fun n => ?_, fun s => rfl, fun b => rfl⟩
  · rw [defaultHashSum, encodeKey, decBytesInt_eq]; rfl
  · rw [defaultHashSum, encodeKey, decBytesNat_eq]; rfl

/-! ## The concrete three-shard scenario cluster -/

/-- The three-shard cluster of the spec's concrete scenarios (ids 1, 2, 3,
default strategy, trivial connections). -/
def clusterABC : Cluster Unit :=
  ⟨[⟨1, ()⟩, ⟨2, ()⟩, ⟨3, ()⟩], defaultStrategyFind⟩

/-- C1: with the default strategy and a non-empty shard list, `One(key)`
returns exactly the shard at index `Sum(key) mod len(shards)` of the ordered
shard list, which is an element of that list. -/
theorem one_default_strategy (c : Cluster Conn) (key : Key)
    (hstrat : c.strat = defaultStrategyFind) (hne : c.list ≠ []) :
    ∃ h : defaultHashSum key % c.list.length < c.list.length,
      c.one key = some (c.list.get ⟨defaultHashSum key % c.list.length, h⟩) ∧
      c.list.get ⟨defaultHashSum key % c.list.length, h⟩ ∈ c.list := by
  have hlen : 0 < c.list.length := List.length_pos.mpr hne
  have h : defaultHashSum key % c.list.length < c.list.length :=
    Nat.mod_lt _ hlen
  refine ⟨h, ?_, ?_⟩
  · rw [Cluster.one, hstrat]
    show c.list[defaultHashSum key % c.list.length]? = _
    rw [List.getElem?_eq_getElem h, List.get_eq_getElem]
  · exact List.get_mem ..

/-- Witness for C1 at the concrete scenario cluster and key `122`. -/
theorem one_default_strategy_witness :
    clusterABC.strat = defaultStrategyFind ∧ clusterABC.list ≠ [] ∧
    ∃ h : defaultHashSum (.u64 122) % clusterABC.list.length <
        clusterABC.list.length,
      clusterABC.one (.u64 122) =
        some (clusterABC.list.get
          ⟨defaultHashSum (.u64 122) % clusterABC.list.length, h⟩) ∧
      clusterABC.list.get
          ⟨defaultHashSum (.u64 122) % clusterABC.list.length, h⟩ ∈
        clusterABC.list :=
  ⟨rfl, by decide,
    one_default_strategy clusterABC (.u64 122) rfl (by decide)⟩

/-- C6: the fixed digests of the key `122`/`123` in each encoding, and the
selection of the shard with id 1 in the three-shard scenario. -/
theorem scenarioA_digests :
    defaultHashSum (.i64 122) = 4733761633363427328 ∧
    defaultHashSum (.u64 122) = 4733761633363427328 ∧
    defaultHashSum (.str [49, 50, 50]) = 4733761633363427328 ∧
    defaultHashSum (.i64 123) = 4612164443424423936 ∧
    defaultHashSum (.u64 123) = 4612164443424423936 ∧
    defaultHashSum (.str [49, 50, 51]) = 4612164443424423936 ∧
    clusterABC.one (.i64 122) = some ⟨1, ()⟩ ∧
    clusterABC.one (.u64 122) = some ⟨1, ()⟩ ∧
    clusterABC.one (.str [49, 50, 50]) = some ⟨1, ()⟩ ∧
    clusterABC.one (.i64 123) = some ⟨1, ()⟩ ∧
    clusterABC.one (.u64 123) = some ⟨1, ()⟩ ∧
    clusterABC.one (.str [49, 50, 51]) = some ⟨1, ()⟩ := by
  decide

/-! ## Cluster operations as state transformers -/

/-- A call against the cluster API. -/
inductive ClusterOp (Conn ε : Type) where
  | all
  | one (key : Key)
  | each (fn : Shard Conn → Option ε)
  | mapKeys (ids : List Key)
  | byKeys (ids : List Key) (fn : List Key → Shard Conn → Option ε)

/-- The output of a cluster API call. -/
inductive OpResult (Conn ε : Type) where
  | shards (l : List (Shard Conn))
  | selected (s : Option (Shard Conn))
  | fanout (e : Option ε) (trace : List (Shard Conn × Option ε))
  | grouped (m : Option (List (Shard Conn × List Key)))
  | keyed (r : Option (Option ε × List (List Key × Shard Conn)))

/-- Run one cluster method, returning its output together with the cluster
state after the call.  Every method body in the source only reads `c.list`
and `c.calc`; no statement assigns to either field, so each branch's
post-state is the unchanged receiver. -/
def runOp [DecidableEq Conn] (c : Cluster Conn) :
    ClusterOp Conn ε → OpResult Conn ε × Cluster Conn
  | .all => (.shards c.all, c)
  | .one key => (.selected (c.one key), c)
  | .each fn => (.fanout (c.each fn).1 (c.each fn).2, c)
  | .mapKeys ids => (.grouped (c.mapKeys ids), c)
  | .byKeys ids fn => (.keyed (c.byKeys ids fn), c)

/-- Run a sequence of cluster API calls, threading the state. -/
def runOps [DecidableEq Conn] (c : Cluster Conn)
    (ops : List (ClusterOp Conn ε)) : Cluster Conn :=
  ops.foldl (fun st op => (runOp st op).2) c

/-- C9: after construction no cluster operation mutates the cluster — any
sequence of `All`/`One`/`Each`/`Map`/`ByKeys` calls leaves the shard list
(contents and order), its length and the strategy unchanged. -/
theorem cluster_immutable [DecidableEq Conn] (c : Cluster Conn)
    (ops : List (ClusterOp Conn ε)) :
    runOps c ops = c ∧
    (runOps c ops).list = c.list ∧
    (runOps c ops).strat = c.strat ∧
    (runOps c ops).list.length = c.list.length := by
  have h : ∀ (c' : Cluster Conn), runOps c' ops = c' := by
    induction ops with
    | nil => intro c'; rfl
    | cons op rest ih =>
        intro c'
        have hstep : (runOp c' op).2 = c' := by cases op <;> rfl
        show runOps ((runOp c' op).2) rest = c'
        rw [hstep, ih]
  exact ⟨h c, by rw [h c], by rw [h c], by rw [h c]⟩

/-! ## Characterising the `Map` grouping -/

/-- The ordered sublist of `ids` that a routing function sends to shard `s`. -/
def routed [DecidableEq Conn] (route : Key → Shard Conn) (ids : List Key)
    (s : Shard Conn) : List Key :=
  ids.filter (fun k => decide (route k = s))

lemma routed_snoc [DecidableEq Conn] (route : Key → Shard Conn)
    (done : List Key) (k : Key) (s : Shard Conn) :
    routed route (done ++ [k]) s
      = routed route done s ++ (if route k = s then [k] else []) := by
  rw [routed, routed, List.filter_append]
  congr 1
  by_cases h : route k = s
  · simp [h]
  · simp [h]

/-- The entry update `upsert` performs when the shard is already present. -/
def appendTo [DecidableEq Conn] (s : Shard Conn) (k : Key)
    (p : Shard Conn × List Key) : Shard Conn × List Key :=
  if p.1 = s then (p.1, p.2 ++ [k]) else p

lemma appendTo_fst [DecidableEq Conn] (s : Shard Conn) (k : Key)
    (p : Shard Conn × List Key) : (appendTo s k p).1 = p.1 := by
  rw [appendTo]; split <;> rfl

lemma map_appendTo_of_not_mem [DecidableEq Conn] (s : Shard Conn) (k : Key) :
    ∀ (res : List (Shard Conn × List Key)), s ∉ res.map Prod.fst →
      res.map (appendTo s k) = res
  | [], _ => rfl
  | p :: rest, h => by
      have h1 : p.1 ≠ s := by
        intro hc; exact h (by simp [hc.symm])
      have h2 : s ∉ rest.map Prod.fst := by
        intro hc; exact h (by simp [hc])
      have hrec := map_appendTo_of_not_mem s k rest h2
      simp only [List.map_cons, hrec, appendTo, if_neg h1]

lemma upsert_of_not_mem [DecidableEq Conn] (k : Key) :
    ∀ (res : List (Shard Conn × List Key)) (s : Shard Conn),
      s ∉ res.map Prod.fst → upsert res s k = res ++ [(s, [k])]
  | [], s, _ => rfl
  | (s', g) :: rest, s, h => by
      have h1 : s ≠ s' := by
        intro hc; exact h (by simp [hc])
      have h2 : s ∉ rest.map Prod.fst := by
        intro hc; exact h (by simp [hc])
      rw [upsert, if_neg h1, upsert_of_not_mem k rest s h2]
      rfl

lemma upsert_of_mem [DecidableEq Conn] (k : Key) :
    ∀ (res : List (Shard Conn × List Key)) (s : Shard Conn),
      s ∈ res.map Prod.fst → (res.map Prod.fst).Nodup →
      upsert res s k = res.map (appendTo s k)
  | [], s, h, _ => absurd h (by simp)
  | (s', g) :: rest, s, h, hnd => by
      rw [List.map_cons, List.nodup_cons] at hnd
      by_cases hs : s = s'
      · have hrest : s ∉ rest.map Prod.fst := hs ▸ hnd.1
        rw [upsert, if_pos hs, List.map_cons,
          map_appendTo_of_not_mem s k rest hrest]
        have : appendTo s k (s', g) = (s', g ++ [k]) := by
          rw [appendTo, if_pos hs.symm]
        rw [this]
      · have hrest : s ∈ rest.map Prod.fst := by
          rw [List.map_cons, List.mem_cons] at h
          rcases h with h' | h'
          · exact absurd h' hs
          · exact h'
        rw [upsert, if_neg hs, upsert_of_mem k rest s hrest hnd.2,
          List.map_cons]
        have : appendTo s k (s', g) = (s', g) := by
          rw [appendTo, if_neg (by simpa using Ne.symm hs)]
        rw [this]

lemma mem_upsert_fst [DecidableEq Conn] (k : Key) :
    ∀ (res : List (Shard Conn × List Key)) (s t : Shard Conn),
      t ∈ (upsert res s k).map Prod.fst ↔ t ∈ res.map Prod.fst ∨ t = s
  | [], s, t => by simp [upsert]
  | (s', g) :: rest, s, t => by
      by_cases hs : s = s'
      · rw [upsert, if_pos hs]
        subst hs
        simp [or_assoc, or_comm (a := t = s)]
      · rw [upsert, if_neg hs]
        simp only [List.map_cons, List.mem_cons,
          mem_upsert_fst k rest s t]
        tauto

lemma upsert_join_perm [DecidableEq Conn] (k : Key) :
    ∀ (res : List (Shard Conn × List Key)) (s : Shard Conn),
      ((upsert res s k).map Prod.snd).flatten.Perm
        (k :: (res.map Prod.snd).flatten)
  | [], s => by simp [upsert]
  | (s', g) :: rest, s => by
      by_cases hs : s = s'
      · rw [upsert, if_pos hs]
        simp only [List.map_cons, List.flatten_cons, List.append_assoc,
          List.singleton_append]
        exact List.perm_middle
      · rw [upsert, if_neg hs]
        simp only [List.map_cons, List.flatten_cons]
        exact ((upsert_join_perm k rest s).append_left g).trans
          List.perm_middle

lemma upsert_ne_nil [DecidableEq Conn] (k : Key) (s : Shard Conn) :
    ∀ (res : List (Shard Conn × List Key)),
      (∀ p ∈ res, p.2 ≠ []) → ∀ p ∈ upsert res s k, p.2 ≠ [] := by
  intro res
  induction res with
  | nil =>
      intro _ p hp
      rw [upsert] at hp
      rw [List.mem_singleton] at hp
      subst hp
      simp
  | cons q rest ih =>
      intro h p hp
      obtain ⟨s', g⟩ := q
      by_cases hs : s = s'
      · rw [upsert, if_pos hs] at hp
        rcases List.mem_cons.mp hp with rfl | h'
        · simp
        · exact h p (List.mem_cons_of_mem _ h')
      · rw [upsert, if_neg hs] at hp
        rcases List.mem_cons.mp hp with rfl | h'
        · exact h _ (List.mem_cons_self ..)
        · exact ih (fun q hq => h q (List.mem_cons_of_mem _ hq)) p h'

lemma upsert_inv_step [DecidableEq Conn] (route : Key → Shard Conn)
    (done : List Key) (res : List (Shard Conn × List Key)) (k : Key)
    (h1 : ∀ p ∈ res, p.2 = routed route done p.1)
    (h2 : ∀ s, s ∉ res.map Prod.fst → routed route done s = [])
    (h3 : (res.map Prod.fst).Nodup) :
    (∀ p ∈ upsert res (route k) k, p.2 = routed route (done ++ [k]) p.1) ∧
    (∀ s, s ∉ (upsert res (route k) k).map Prod.fst →
      routed route (done ++ [k]) s = []) ∧
    ((upsert res (route k) k).map Prod.fst).Nodup := by
  by_cases hmem : route k ∈ res.map Prod.fst
  · rw [upsert_of_mem k res (route k) hmem h3]
    have hfst : (res.map (appendTo (route k) k)).map Prod.fst
        = res.map Prod.fst := by
      simp [List.map_map, Function.comp_def, appendTo_fst]
    refine ⟨?_, ?_, ?_⟩
    · intro p hp
      rw [List.mem_map] at hp
      obtain ⟨q, hq, rfl⟩ := hp
      rw [appendTo]
      by_cases hq1 : q.1 = route k
      · rw [if_pos hq1]
        show q.2 ++ [k] = routed route (done ++ [k]) q.1
        rw [routed_snoc, ← h1 q hq, if_pos hq1.symm]
      · rw [if_neg hq1]
        show q.2 = routed route (done ++ [k]) q.1
        rw [routed_snoc, ← h1 q hq, if_neg (fun hc => hq1 hc.symm),
          List.append_nil]
    · intro s hs
      rw [hfst] at hs
      have hne : route k ≠ s := fun hc => hs (hc ▸ hmem)
      rw [routed_snoc, h2 s hs, if_neg hne, List.append_nil]
    · rw [hfst]; exact h3
  · rw [upsert_of_not_mem k res (route k) hmem]
    have hfst : ((res ++ [(route k, [k])]).map Prod.fst)
        = res.map Prod.fst ++ [route k] := by
      simp
    refine ⟨?_, ?_, ?_⟩
    · intro p hp
      rcases List.mem_append.mp hp with hp | hp
      · have hne : route k ≠ p.1 := by
          intro hc
          exact hmem (hc ▸ List.mem_map_of_mem Prod.fst hp)
        rw [routed_snoc, ← h1 p hp, if_neg hne, List.append_nil]
      · rw [List.mem_singleton] at hp
        subst hp
        show [k] = routed route (done ++ [k]) (route k)
        rw [routed_snoc, h2 (route k) hmem, if_pos rfl, List.nil_append]
    · intro s hs
      rw [hfst] at hs
      have hs1 : s ∉ res.map Prod.fst :=
        fun hc => hs (List.mem_append_left _ hc)
      have hs2 : route k ≠ s :=
        fun hc => hs (List.mem_append_right _ (by simp [hc]))
      rw [routed_snoc, h2 s hs1, if_neg hs2, List.append_nil]
    · rw [hfst, List.nodup_append]
      exact ⟨h3, List.nodup_singleton _, by simp [hmem]⟩

/-- `cluster.Map`'s loop over a total routing function (the shape
`mapKeysAux` takes when `One` succeeds on every processed key). -/
def pureMapAux [DecidableEq Conn] (route : Key → Shard Conn) :
    List (Shard Conn × List Key) → List Key → List (Shard Conn × List Key)
  | res, [] => res
  | res, k :: ks => pureMapAux route (upsert res (route k) k) ks

lemma pureMapAux_inv [DecidableEq Conn] (route : Key → Shard Conn) :
    ∀ (ids done : List Key) (res : List (Shard Conn × List Key)),
      (∀ p ∈ res, p.2 = routed route done p.1) →
      (∀ s, s ∉ res.map Prod.fst → routed route done s = []) →
      (res.map Prod.fst).Nodup →
      (∀ p ∈ pureMapAux route res ids,
        p.2 = routed route (done ++ ids) p.1) ∧
      (∀ s, s ∉ (pureMapAux route res ids).map Prod.fst →
        routed route (done ++ ids) s = []) ∧
      ((pureMapAux route res ids).map Prod.fst).Nodup
  | [], done, res, h1, h2, h3 => by
      rw [List.append_nil]
      exact ⟨h1, h2, h3⟩
  | k :: ks, done, res, h1, h2, h3 => by
      have step := upsert_inv_step route done res k h1 h2 h3
      have rec := pureMapAux_inv route ks (done ++ [k])
        (upsert res (route k) k) step.1 step.2.1 step.2.2
      simp only [pureMapAux]
      simpa [List.append_assoc] using rec

lemma pureMapAux_join_perm [DecidableEq Conn] (route : Key → Shard Conn) :
    ∀ (ids : List Key) (res : List (Shard Conn × List Key)),
      ((pureMapAux route res ids).map Prod.snd).flatten.Perm
        ((res.map Prod.snd).flatten ++ ids)
  | [], res => by simp [pureMapAux]
  | k :: ks, res => by
      simp only [pureMapAux]
      have h1 := pureMapAux_join_perm route ks (upsert res (route k) k)
      have h2 := (upsert_join_perm k res (route k)).append_right ks
      refine h1.trans (h2.trans ?_)
      rw [List.cons_append]
      exact List.perm_middle.symm

lemma pureMapAux_mem_fst [DecidableEq Conn] (route : Key → Shard Conn) :
    ∀ (ids : List Key) (res : List (Shard Conn × List Key)) (s : Shard Conn),
      s ∈ (pureMapAux route res ids).map Prod.fst ↔
        s ∈ res.map Prod.fst ∨ ∃ k ∈ ids, route k = s
  | [], res, s => by simp [pureMapAux]
  | k :: ks, res, s => by
      simp only [pureMapAux]
      rw [pureMapAux_mem_fst route ks _ s, mem_upsert_fst]
      simp only [List.mem_cons]
      constructor
      · rintro ((h | rfl) | ⟨k', hk', rfl⟩)
        · exact Or.inl h
        · exact Or.inr ⟨k, Or.inl rfl, rfl⟩
        · exact Or.inr ⟨k', Or.inr hk', rfl⟩
      · rintro (h | ⟨k', hk' | hk', rfl⟩)
        · exact Or.inl (Or.inl h)
        · subst hk'; exact Or.inl (Or.inr rfl)
        · exact Or.inr ⟨k', hk', rfl⟩

lemma pureMapAux_ne_nil [DecidableEq Conn] (route : Key → Shard Conn) :
    ∀ (ids : List Key) (res : List (Shard Conn × List Key)),
      (∀ p ∈ res, p.2 ≠ []) → ∀ p ∈ pureMapAux route res ids, p.2 ≠ []
  | [], res, h => by simpa [pureMapAux] using h
  | k :: ks, res, h => by
      simp only [pureMapAux]
      exact pureMapAux_ne_nil route ks _ (upsert_ne_nil k (route k) res h)

lemma mapKeysAux_eq_pure [DecidableEq Conn] (c : Cluster Conn)
    (route : Key → Shard Conn) :
    ∀ (ids : List Key) (res : List (Shard Conn × List Key)),
      (∀ k ∈ ids, c.one k = some (route k)) →
      c.mapKeysAux res ids = some (pureMapAux route res ids)
  | [], res, _ => rfl
  | k :: ks, res, h => by
      have hk : c.one k = some (route k) := h k (List.mem_cons_self ..)
      simp only [Cluster.mapKeysAux, pureMapAux, hk]
      exact mapKeysAux_eq_pure c route ks _
        (fun x hx => h x (List.mem_cons_of_mem _ hx))

/-- Everything the fan-out claims need about the `Map` grouping: the value
`Map` computes, the per-group filter characterisation (order preservation),
distinctness of the group shards, the multiset identity, the membership
description of the touched shards and non-emptiness of every group. -/
lemma mapKeys_char [DecidableEq Conn] (c : Cluster Conn)
    (route : Key → Shard Conn) (ids : List Key)
    (hroute : ∀ k ∈ ids, c.one k = some (route k)) :
    c.mapKeys ids = some (pureMapAux route [] ids) ∧
    (∀ p ∈ pureMapAux route [] ids, p.2 = routed route ids p.1) ∧
    ((pureMapAux route [] ids).map Prod.fst).Nodup ∧
    ((pureMapAux route [] ids).map Prod.snd).flatten.Perm ids ∧
    (∀ s, s ∈ (pureMapAux route [] ids).map Prod.fst ↔
      ∃ k ∈ ids, route k = s) ∧
    (∀ p ∈ pureMapAux route [] ids, p.2 ≠ []) := by
  have hinv := pureMapAux_inv route ids [] []
    (by simp) (fun s _ => rfl) (by simp)
  refine ⟨mapKeysAux_eq_pure c route ids [] hroute, ?_, hinv.2.2, ?_, ?_, ?_⟩
  · simpa using hinv.1
  · simpa using pureMapAux_join_perm route ids []
  · intro s
    simpa using pureMapAux_mem_fst route ids [] s
  · exact pureMapAux_ne_nil route ids [] (by simp)

lemma each_none_iff [DecidableEq Conn] (c : Cluster Conn)
    (fn : Shard Conn → Option ε) :
    (c.each fn).1 = none ↔ ∀ s ∈ c.list, fn s = none := by
  show ((c.eachRuns fn).filterMap Prod.snd).head? = none ↔ _
  rw [List.head?_eq_none_iff, Cluster.eachRuns, List.filterMap_map,
    List.filterMap_eq_nil_iff]
  simp [Function.comp_def]

/-- C2: for every input key sequence, `Map` assigns each key to exactly one
group (the shards keying the groups are pairwise distinct), each group is the
ordered sublist of the input routed to its shard — preserving input order and
duplicate keys — and the concatenation of all groups is a permutation of the
input: no key is lost or duplicated. -/
theorem map_partition [DecidableEq Conn] (c : Cluster Conn)
    (route : Key → Shard Conn) (ids : List Key)
    (hroute : ∀ k ∈ ids, c.one k = some (route k)) :
    ∃ m, c.mapKeys ids = some m ∧
      (m.map Prod.fst).Nodup ∧
      (∀ p ∈ m, p.2 = routed route ids p.1) ∧
      ((m.map Prod.snd).flatten).Perm ids := by
  obtain ⟨hm, hfilter, hnd, hperm, _, _⟩ := mapKeys_char c route ids hroute
  exact ⟨_, hm, hnd, hfilter, hperm⟩

/-- The keys 1..10 of the spec's scenario B, as `uint64` keys. -/
def idsTen : List Key :=
  [.u64 1, .u64 2, .u64 3, .u64 4, .u64 5,
   .u64 6, .u64 7, .u64 8, .u64 9, .u64 10]

/-- The routing function realised by the default strategy on the scenario
cluster (total, with an irrelevant fallback for the in-bounds index). -/
def routeABC : Key → Shard Unit :=
  fun k => clusterABC.list.getD (defaultHashSum k % 3) ⟨1, ()⟩

/-- Witness for C2 on scenario B (keys 1..10 against shards 1, 2, 3). -/
theorem map_partition_witness :
    (∀ k ∈ idsTen, clusterABC.one k = some (routeABC k)) ∧
    (∃ m, clusterABC.mapKeys idsTen = some m ∧
      (m.map Prod.fst).Nodup ∧
      (∀ p ∈ m, p.2 = routed routeABC idsTen p.1) ∧
      ((m.map Prod.snd).flatten).Perm idsTen) :=
  ⟨by decide, map_partition clusterABC routeABC idsTen (by decide)⟩

/-- C3: `Each` and `ByKeys` return no error iff every per-shard invocation
returns no error and a non-nil error iff at least one invocation fails; the
invocation trace covers every shard (resp. every group), independently of
which invocations fail — no short-circuit. -/
theorem fanout_error_iff [DecidableEq Conn] (c : Cluster Conn)
    (fn : Shard Conn → Option ε) (ids : List Key)
    (fnk : List Key → Shard Conn → Option ε) (route : Key → Shard Conn)
    (hroute : ∀ k ∈ ids, c.one k = some (route k)) :
    ((c.each fn).1 = none ↔ ∀ s ∈ c.list, fn s = none) ∧
    ((c.each fn).1 ≠ none ↔ ∃ s ∈ c.list, fn s ≠ none) ∧
    ((c.each fn).2.map Prod.fst = c.list) ∧
    (∃ m res, c.mapKeys ids = some m ∧
      c.byKeys ids fnk = some (res, m.map (fun p => (p.2, p.1))) ∧
      (res = none ↔ ∀ p ∈ m, fnk p.2 p.1 = none) ∧
      (res ≠ none ↔ ∃ p ∈ m, fnk p.2 p.1 ≠ none)) := by
  have heach := each_none_iff c fn
  refine ⟨heach, ?_, ?_, ?_⟩
  · rw [ne_eq, heach]
    push_neg
    rfl
  · show (c.eachRuns fn).map Prod.fst = c.list
    rw [Cluster.eachRuns, List.map_map]
    simp [Function.comp_def]
  · obtain ⟨hm, _, _, _, _, _⟩ := mapKeys_char c route ids hroute
    refine ⟨pureMapAux route [] ids,
      ((pureMapAux route [] ids).map (fun p => (p.2, p.1))).filterMap
        (fun r => fnk r.1 r.2) |>.head?, hm, ?_, ?_, ?_⟩
    · rw [Cluster.byKeys, hm]
    · rw [List.head?_eq_none_iff, List.filterMap_map,
        List.filterMap_eq_nil_iff]
      simp [Function.comp_def]
    · rw [ne_eq, List.head?_eq_none_iff, List.filterMap_map,
        List.filterMap_eq_nil_iff]
      push_neg
      simp [Function.comp_def]

/-- A fan-out operation on the scenario cluster failing exactly on the shard
with id 3. -/
def failOn3 : Shard Unit → Option Unit :=
  fun s => if s.id = 3 then some () else none

/-- A keyed fan-out operation failing exactly on groups of even size. -/
def failOnEven : List Key → Shard Unit → Option Unit :=
  fun g _ => if g.length % 2 = 0 then some () else none

/-- Witness for C3 at the scenario cluster, keys 1..10 and the operations
that fail on shard 3 (for `Each`) and on even-sized groups (for `ByKeys`). -/
theorem fanout_error_iff_witness :
    (∀ k ∈ idsTen, clusterABC.one k = some (routeABC k)) ∧
    (((clusterABC.each failOn3).1 = none ↔
        ∀ s ∈ clusterABC.list, failOn3 s = none) ∧
      ((clusterABC.each failOn3).1 ≠ none ↔
        ∃ s ∈ clusterABC.list, failOn3 s ≠ none) ∧
      ((clusterABC.each failOn3).2.map Prod.fst = clusterABC.list) ∧
      (∃ m res, clusterABC.mapKeys idsTen = some m ∧
        clusterABC.byKeys idsTen failOnEven =
          some (res, m.map (fun p => (p.2, p.1))) ∧
        (res = none ↔ ∀ p ∈ m, failOnEven p.2 p.1 = none) ∧
        (res ≠ none ↔ ∃ p ∈ m, failOnEven p.2 p.1 ≠ none))) :=
  ⟨by decide,
    fanout_error_iff clusterABC failOn3 idsTen failOnEven routeABC (by decide)⟩

/-- C8: `ByKeys` computes the `Map` grouping and invokes the operation once
per distinct shard touched by the key set (not once per key), passing the
full key subset routed to that shard; the number of invocations equals the
number of distinct shards selected by the keys and is at most the shard
count. -/
theorem byKeys_per_distinct_shard [DecidableEq Conn] (c : Cluster Conn)
    (ids : List Key) (fnk : List Key → Shard Conn → Option ε)
    (route : Key → Shard Conn)
    (hroute : ∀ k ∈ ids, c.one k = some (route k))
    (hmem : ∀ k ∈ ids, route k ∈ c.list) :
    ∃ m res, c.mapKeys ids = some m ∧
      c.byKeys ids fnk = some (res, m.map (fun p => (p.2, p.1))) ∧
      (∀ p ∈ m, p.2 = routed route ids p.1) ∧
      (m.map Prod.fst).Nodup ∧
      (∀ s, s ∈ m.map Prod.fst ↔ ∃ k ∈ ids, route k = s) ∧
      m.length = (ids.map route).toFinset.card ∧
      m.length ≤ c.list.length := by
  obtain ⟨hm, hfilter, hnd, _, hmemf, _⟩ := mapKeys_char c route ids hroute
  have hlen : (pureMapAux route [] ids).length
      = ((pureMapAux route [] ids).map Prod.fst).length :=
    (List.length_map ..).symm
  have hfin : ((pureMapAux route [] ids).map Prod.fst).toFinset
      = (ids.map route).toFinset := by
    ext s
    rw [List.mem_toFinset, List.mem_toFinset, hmemf s, List.mem_map]
  have hsub : (pureMapAux route [] ids).map Prod.fst ⊆ c.list := by
    intro s hs
    rw [hmemf s] at hs
    obtain ⟨k, hk, rfl⟩ := hs
    exact hmem k hk
  refine ⟨pureMapAux route [] ids,
    (((pureMapAux route [] ids).map (fun p => (p.2, p.1))).filterMap
      (fun r => fnk r.1 r.2)).head?, hm, ?_, hfilter, hnd, hmemf, ?_, ?_⟩
  · rw [Cluster.byKeys, hm]
  · rw [hlen, ← List.toFinset_card_of_nodup hnd, hfin]
  · rw [hlen]
    exact (hnd.subperm hsub).length_le

/-- Witness for C8 on scenario B. -/
theorem byKeys_per_distinct_shard_witness :
    (∀ k ∈ idsTen, clusterABC.one k = some (routeABC k)) ∧
    (∀ k ∈ idsTen, routeABC k ∈ clusterABC.list) ∧
    (∃ m res, clusterABC.mapKeys idsTen = some m ∧
      clusterABC.byKeys idsTen failOnEven =
        some (res, m.map (fun p => (p.2, p.1))) ∧
      (∀ p ∈ m, p.2 = routed routeABC idsTen p.1) ∧
      (m.map Prod.fst).Nodup ∧
      (∀ s, s ∈ m.map Prod.fst ↔ ∃ k ∈ idsTen, routeABC k = s) ∧
      m.length = (idsTen.map routeABC).toFinset.card ∧
      m.length ≤ clusterABC.list.length) :=
  ⟨by decide, by decide,
    byKeys_per_distinct_shard clusterABC idsTen failOnEven routeABC
      (by decide) (by decide)⟩

/-- C10: every group `Map` produces is non-empty and `Map` of the empty key
sequence is the empty mapping; hence `ByKeys` never invokes the operation
with an empty key subset, and on an empty key sequence performs no
invocations and returns no error. -/
theorem map_groups_nonempty [DecidableEq Conn] (c : Cluster Conn)
    (ids : List Key) (fnk : List Key → Shard Conn → Option ε)
    (route : Key → Shard Conn)
    (hroute : ∀ k ∈ ids, c.one k = some (route k)) :
    (∃ m res runs, c.mapKeys ids = some m ∧ (∀ p ∈ m, p.2 ≠ []) ∧
      c.byKeys ids fnk = some (res, runs) ∧ ∀ r ∈ runs, r.1 ≠ []) ∧
    c.mapKeys [] = some ([] : List (Shard Conn × List Key)) ∧
    c.byKeys [] fnk = some (none, []) := by
  obtain ⟨hm, _, _, _, _, hne⟩ := mapKeys_char c route ids hroute
  refine ⟨⟨pureMapAux route [] ids,
    (((pureMapAux route [] ids).map (fun p => (p.2, p.1))).filterMap
      (fun r => fnk r.1 r.2)).head?,
    (pureMapAux route [] ids).map (fun p => (p.2, p.1)), hm, hne, ?_, ?_⟩,
    rfl, rfl⟩
  · rw [Cluster.byKeys, hm]
  · intro r hr
    rw [List.mem_map] at hr
    obtain ⟨p, hp, rfl⟩ := hr
    exact hne p hp

/-- Witness for C10 on scenario B. -/
theorem map_groups_nonempty_witness :
    (∀ k ∈ idsTen, clusterABC.one k = some (routeABC k)) ∧
    ((∃ m res runs, clusterABC.mapKeys idsTen = some m ∧
        (∀ p ∈ m, p.2 ≠ []) ∧
        clusterABC.byKeys idsTen failOnEven = some (res, runs) ∧
        ∀ r ∈ runs, r.1 ≠ []) ∧
      clusterABC.mapKeys [] = some ([] : List (Shard Unit × List Key)) ∧
      clusterABC.byKeys [] failOnEven = some (none, [])) :=
  ⟨by decide,
    map_groups_nonempty clusterABC idsTen failOnEven routeABC (by decide)⟩

/-! ## `Connect`: validation order and the successful path -/

lemma validateAndLaunch_eq : ∀ (l : List ShardConfig),
    validateAndLaunch l
      = (l.takeWhile (fun sc => (ShardConfig.valid sc).isNone),
         (l.filterMap ShardConfig.valid).head?)
  | [] => rfl
  | sc :: rest => by
      cases hv : sc.valid with
      | some e =>
          simp [validateAndLaunch, hv, List.takeWhile_cons,
            List.filterMap_cons]
      | none =>
          simp [validateAndLaunch, hv, List.takeWhile_cons,
            List.filterMap_cons, validateAndLaunch_eq rest]

lemma validateAndLaunch_all_valid : ∀ (l : List ShardConfig),
    (∀ sc ∈ l, sc.valid = none) → validateAndLaunch l = (l, none)
  | [], _ => rfl
  | sc :: rest, h => by
      have hv : sc.valid = none := h sc (List.mem_cons_self ..)
      simp only [validateAndLaunch, hv]
      rw [validateAndLaunch_all_valid rest
        (fun x hx => h x (List.mem_cons_of_mem _ hx))]

lemma connLoop_all_ok (f : ConnectFunc Conn) : ∀ (l : List ShardConfig),
    (∀ sc ∈ l, ∃ v, f sc.addr = .ok v) →
    (connLoop f l).2 = [] ∧
    (connLoop f l).1.map Shard.id = l.map ShardConfig.id
  | [], _ => ⟨rfl, rfl⟩
  | sc :: rest, h => by
      obtain ⟨v, hv⟩ := h sc (List.mem_cons_self ..)
      have ih := connLoop_all_ok f rest
        (fun x hx => h x (List.mem_cons_of_mem _ hx))
      simp only [connLoop, hv]
      exact ⟨ih.1, by simp [ih.2]⟩

lemma areShardsUniqueLoop_nodup :
    ∀ (l : List ShardConfig) (seenI : List Int) (seenA : List (List Nat)),
      areShardsUniqueLoop seenI seenA l = true →
      (l.map ShardConfig.id).Nodup ∧ ∀ i ∈ l.map ShardConfig.id, i ∉ seenI
  | [], _, _, _ => ⟨List.nodup_nil, by simp⟩
  | sc :: rest, seenI, seenA, h => by
      rw [areShardsUniqueLoop] at h
      by_cases h1 : sc.id ∈ seenI
      · rw [if_pos h1] at h
        exact absurd h (by simp)
      · rw [if_neg h1] at h
        by_cases h2 : sc.addr ∈ seenA
        · rw [if_pos h2] at h
          exact absurd h (by simp)
        · rw [if_neg h2] at h
          have ih := areShardsUniqueLoop_nodup rest
            (sc.id :: seenI) (sc.addr :: seenA) h
          refine ⟨?_, ?_⟩
          · rw [List.map_cons, List.nodup_cons]
            exact ⟨fun hc => (ih.2 sc.id hc) (List.mem_cons_self ..), ih.1⟩
          · intro i hi
            rw [List.map_cons, List.mem_cons] at hi
            rcases hi with rfl | hi
            · exact h1
            · exact fun hc => (ih.2 i hi) (List.mem_cons_of_mem _ hc)

lemma mergeSort_strict_sorted (l : List (Shard Conn))
    (hnd : (l.map Shard.id).Nodup) :
    (l.mergeSort (fun a b => decide (a.id ≤ b.id))).Pairwise
      (fun a b => a.id < b.id) ∧
    (l.mergeSort (fun a b => decide (a.id ≤ b.id))).Perm l := by
  have hperm := List.mergeSort_perm l (fun a b => decide (a.id ≤ b.id))
  have hsorted := @List.sorted_mergeSort (Shard Conn)
    (fun a b => decide (a.id ≤ b.id))
    (fun a b c hab hbc => by
      rw [decide_eq_true_eq] at hab hbc ⊢
      exact le_trans hab hbc)
    (fun a b => by
      rcases le_total a.id b.id with h | h
      · simp [h]
      · simp [h])
    l
  have hle : (l.mergeSort (fun a b => decide (a.id ≤ b.id))).Pairwise
      (fun a b => a.id ≤ b.id) :=
    hsorted.imp (fun h => by simpa using h)
  have hndsort :
      ((l.mergeSort (fun a b => decide (a.id ≤ b.id))).map Shard.id).Nodup :=
    ((hperm.map Shard.id).nodup_iff).mpr hnd
  have hne : (l.mergeSort (fun a b => decide (a.id ≤ b.id))).Pairwise
      (fun a b => a.id ≠ b.id) :=
    List.pairwise_map.mp hndsort
  exact ⟨(hle.and hne).imp (fun h => lt_of_le_of_ne h.1 h.2), hperm⟩

/-- C4: for a non-empty, unique, valid config set whose connect function
succeeds on every address, `Connect` returns a Cluster with exactly as many
shards as configs, strictly ascending by id, carrying the config ids, and
bound to the supplied strategy (or the default strategy if none given). -/
theorem connect_success (cfg : Config Conn) (f : ConnectFunc Conn)
    (hc : cfg.connect = some f)
    (hne : cfg.shards ≠ [])
    (huniq : areShardsUnique cfg.shards = true)
    (hvalid : ∀ sc ∈ cfg.shards, sc.valid = none)
    (hok : ∀ sc ∈ cfg.shards, ∃ v, f sc.addr = .ok v) :
    ∃ c, (Connect cfg).1 = .ok c ∧
      c.list.length = cfg.shards.length ∧
      c.list.Pairwise (fun a b => a.id < b.id) ∧
      (c.list.map Shard.id).Perm (cfg.shards.map ShardConfig.id) ∧
      c.strat = cfg.strategy.getD defaultStrategyFind := by
  have hlen0 : ¬ cfg.shards.length = 0 := by
    simpa [List.length_eq_zero] using hne
  have hvl := validateAndLaunch_all_valid cfg.shards hvalid
  have hcl := connLoop_all_ok f cfg.shards hok
  have hnd : (cfg.shards.map ShardConfig.id).Nodup :=
    (areShardsUniqueLoop_nodup cfg.shards [] [] huniq).1
  have hndl : ((connLoop f cfg.shards).1.map Shard.id).Nodup := by
    rw [hcl.2]; exact hnd
  obtain ⟨hsorted, hperm⟩ :=
    mergeSort_strict_sorted (connLoop f cfg.shards).1 hndl
  refine ⟨⟨(connLoop f cfg.shards).1.mergeSort
      (fun a b => decide (a.id ≤ b.id)),
    match cfg.strategy with
    | some st => st
    | none => defaultStrategyFind⟩, ?_, ?_, hsorted, ?_, ?_⟩
  · rw [Connect, if_neg hlen0, if_neg (by rw [huniq]; simp), hc]
    simp only [hvl, hcl.1]
    rfl
  · show ((connLoop f cfg.shards).1.mergeSort
      (fun a b => decide (a.id ≤ b.id))).length = cfg.shards.length
    rw [hperm.length_eq]
    have h := congrArg List.length hcl.2
    simpa using h
  · show (((connLoop f cfg.shards).1.mergeSort
      (fun a b => decide (a.id ≤ b.id))).map Shard.id).Perm _
    rw [← hcl.2]
    exact hperm.map Shard.id
  · cases cfg.strategy <;> rfl

/-- A connect function that always succeeds with a trivial connection. -/
def okConnect : ConnectFunc Unit := fun _ => .ok ()

/-- A valid, unique three-shard config set given in descending id order. -/
def cfgGood : Config Unit :=
  ⟨some okConnect, [⟨2, [98]⟩, ⟨1, [97]⟩, ⟨3, [99]⟩], none⟩

/-- Witness for C4 at a concrete three-shard config. -/
theorem connect_success_witness :
    cfgGood.connect = some okConnect ∧
    cfgGood.shards ≠ [] ∧
    areShardsUnique cfgGood.shards = true ∧
    (∀ sc ∈ cfgGood.shards, sc.valid = none) ∧
    (∃ c, (Connect cfgGood).1 = .ok c ∧
      c.list.length = cfgGood.shards.length ∧
      c.list.Pairwise (fun a b => a.id < b.id) ∧
      (c.list.map Shard.id).Perm (cfgGood.shards.map ShardConfig.id) ∧
      c.strat = cfgGood.strategy.getD defaultStrategyFind) :=
  ⟨rfl, by decide, by decide, by decide,
    connect_success cfgGood okConnect rfl (by decide) (by decide) (by decide)
      (fun sc _ => ⟨(), rfl⟩)⟩

/-- A config set whose second entry is invalid (zero id); the first entry is
valid, so its connection attempt is launched before the error is raised. -/
def cfgTwoBad : Config Unit :=
  ⟨some okConnect, [⟨1, [97]⟩, ⟨0, [98]⟩], none⟩

/-- An empty config set. -/
def cfgEmpty : Config Unit := ⟨some okConnect, [], none⟩

/-- Counterexample to C5 as stated: with configs `[{id 1, addr "a"},
{id 0, addr "b"}]` the per-config validation error for the second config is
returned only after the first config's connection attempt has been launched —
the attempted-address trace is `["a"]`, not empty, so the configuration error
is not raised "without the connect function being invoked for any config". -/
theorem config_error_after_attempt_cex :
    (Connect cfgTwoBad).1 = .error errInvalidId ∧
    (Connect cfgTwoBad).2 = [[97]] ∧
    [[97]] ≠ ([] : List (List Nat)) :=
  ⟨rfl, rfl, by decide⟩

/-- C5 (amended): an empty config list, duplicate ids or addresses, and a
missing connect function are raised before any connection attempt; an invalid
id or address on a config is raised before that config's own attempt is
launched, but the attempts for the valid prefix of configs preceding the
first invalid one have already been launched. -/
theorem config_errors_before_attempts (cfg : Config Conn) :
    (cfg.shards = [] → Connect cfg = (.error errEmptyShards, [])) ∧
    (areShardsUnique cfg.shards = false → cfg.shards ≠ [] →
      Connect cfg = (.error errNotUnique, [])) ∧
    (cfg.connect = none → cfg.shards ≠ [] →
      areShardsUnique cfg.shards = true →
      Connect cfg = (.error errNilConnect, [])) ∧
    (∀ (f : ConnectFunc Conn) (e : String), cfg.connect = some f →
      cfg.shards ≠ [] → areShardsUnique cfg.shards = true →
      (cfg.shards.filterMap ShardConfig.valid).head? = some e →
      Connect cfg = (.error e,
        (cfg.shards.takeWhile
          (fun sc => (ShardConfig.valid sc).isNone)).map ShardConfig.addr)) := by
  refine ⟨?_, ?_, ?_, ?_⟩
  · intro h
    rw [Connect, if_pos (by rw [h]; rfl)]
  · intro h hne
    have hlen0 : ¬ cfg.shards.length = 0 := by
      simpa [List.length_eq_zero] using hne
    rw [Connect, if_neg hlen0, if_pos h]
  · intro h hne huniq
    have hlen0 : ¬ cfg.shards.length = 0 := by
      simpa [List.length_eq_zero] using hne
    rw [Connect, if_neg hlen0, if_neg (by rw [huniq]; simp), h]
  · intro f e hc hne huniq herr
    have hlen0 : ¬ cfg.shards.length = 0 := by
      simpa [List.length_eq_zero] using hne
    rw [Connect, if_neg hlen0, if_neg (by rw [huniq]; simp), hc]
    simp only [validateAndLaunch_eq, herr]

/-- Witness for C5 (amended) at the empty config set and at the config set
with a valid first and invalid second entry. -/
theorem config_errors_before_attempts_witness :
    (cfgTwoBad.shards.filterMap ShardConfig.valid).head?
        = some errInvalidId ∧
    Connect cfgEmpty = (.error errEmptyShards, []) ∧
    Connect cfgTwoBad = (.error errInvalidId,
      (cfgTwoBad.shards.takeWhile
        (fun sc => (ShardConfig.valid sc).isNone)).map ShardConfig.addr) :=
  ⟨rfl, (config_errors_before_attempts cfgEmpty).1 rfl,
    (config_errors_before_attempts cfgTwoBad).2.2.2 okConnect errInvalidId
      rfl (by decide) (by decide) rfl⟩

end Sharding
